import Mathlib

/-!
Shallow embedding of the `mental-load` couples board
(src/trello-couples/src/App.tsx).

The repository is a single-page task board.  All state lives in a normalized
`BoardState` record; the operations are the handlers `addCard`, `toggleDone`,
`moveCard` (directional) and `clearBoard` (reset), and the derivation layer is
`dueStatus`, `weekRange` and `weeklyStats`.

Modelling choices, each matching the JavaScript source:

* Timestamps are epoch milliseconds (`Int`).  A value obtained from
  `new Date(s).getTime()` is either a number or `NaN`; we model that result
  with `JsNum` (`.val t` or `.nan`), and the comparisons `<` / `>` on it
  return `false` whenever one side is `NaN`, exactly as in JavaScript.
* A card field that holds an optional ISO string (`dueDate`, `completedAt`)
  is observed by the code only through (a) its JS truthiness (`!c.completedAt`,
  false for `undefined` and for the empty string) and (b) its parse result.
  We therefore store `Option JsNum`: `none` for an absent-or-empty (falsy)
  string, `some (.val t)` for a nonempty string parsing to `t`, and
  `some .nan` for a nonempty string that does not parse.
* JS `Record`s (`cards`, `columns`) are association lists whose keys are
  unique (a representation invariant of JS objects).  The object-spread
  update `{...r, [k]: v}` replaces the entry in place when `k` is present
  and appends it otherwise (`recordSet`).
* Reading a property of `undefined` (e.g. `prev.columns[columnId].cardIds`
  with an unknown column id) throws a `TypeError`; the embedded operations
  return `Option BoardState`, with `none` for that crash.
* Local time is modelled as a fixed-offset timeline (offset 0, no DST), so
  the `Date` mutations `setHours(0,0,0,0)` / `setDate` in `weekRange` become
  flat arithmetic on epoch milliseconds, with days `86400000` ms long and
  epoch day 0 (1970-01-01) a Thursday (`getDay() = 4`).
* `Math.round(x)` on the nonnegative ratio `(me / total) * 100` is modelled
  as exact round-half-up on rationals.
-/

namespace MentalLoad

/-- Result of `new Date(s).getTime()`: a finite number or `NaN`. -/
inductive JsNum where
  | nan : JsNum
  | val : Int → JsNum
deriving DecidableEq, Repr

/-- JS `<` with a possibly-`NaN` left operand: `NaN < x` is `false`. -/
def JsNum.ltInt : JsNum → Int → Bool
  | .nan, _ => false
  | .val t, x => decide (t < x)

/-- JS `>` with a possibly-`NaN` left operand: `NaN > x` is `false`. -/
def JsNum.gtInt : JsNum → Int → Bool
  | .nan, _ => false
  | .val t, x => decide (t > x)

/-- The two assignees selectable in the UI (`'Me' | 'Partner'`). -/
inductive Assignee where
  | me : Assignee
  | partner : Assignee
deriving DecidableEq, Repr

/-- Type `Card` from App.tsx: optional assignee, optional due date, `done`
(absent = `false`), optional completion time. -/
structure Card where
  id : String
  title : String
  assignee : Option Assignee := none
  dueDate : Option JsNum := none
  done : Bool := false
  completedAt : Option JsNum := none
deriving DecidableEq, Repr

/-- Type `Column` from App.tsx. -/
structure Column where
  id : String
  title : String
  cardIds : List String
deriving DecidableEq, Repr

/-- Type `BoardState` from App.tsx: two JS records plus the column display order. -/
structure BoardState where
  cards : List (String × Card)
  columns : List (String × Column)
  columnOrder : List String
deriving DecidableEq, Repr

/-- Keys of a JS record modelled as an association list. -/
def recordKeys {α : Type} (r : List (String × α)) : List String :=
  r.map Prod.fst

/-- JS property lookup `r[k]` (`none` = `undefined`). -/
def recordGet {α : Type} (r : List (String × α)) (k : String) : Option α :=
  match r.find? (fun p => p.fst == k) with
  | some p => some p.snd
  | none => none

/-- JS object-spread update `{...r, [k]: v}`: replaces the value at `k` in
place when the key exists, appends the pair otherwise. -/
def recordSet {α : Type} (r : List (String × α)) (k : String) (v : α) :
    List (String × α) :=
  if r.any (fun p => p.fst == k) then
    r.map (fun p => if p.fst == k then (k, v) else p)
  else
    r ++ [(k, v)]

/-! ## Derivation layer -/

/-- The status strings returned by `dueStatus` (`null` is `Option.none`). -/
inductive DueStatus where
  | overdue : DueStatus
  | soon : DueStatus
deriving DecidableEq, Repr

/-- Milliseconds per day. -/
def dayMs : Int := 1000 * 60 * 60 * 24

/-- Function `dueStatus(card)` from App.tsx, with the ambient `Date.now()` passed
explicitly.  Returns `null` when the card has no (falsy) due date or is done;
otherwise compares `ms = dueTime - now` against `0` and 24 hours, where a
`NaN` due time fails both comparisons. -/
def dueStatus (now : Int) (card : Card) : Option DueStatus :=
  match card.dueDate with
  | none => none
  | some due =>
    if card.done then none
    else
      match due with
      | .nan => none
      | .val t =>
        let ms := t - now
        if ms ≤ 0 then some .overdue
        else if ms ≤ dayMs then some .soon
        else none

/-- Day index of an epoch-millisecond instant, floor division (negative
instants round toward minus infinity, as `Date` does). -/
def epochDay (t : Int) : Int := Int.fdiv t dayMs

/-- JS `getDay()`: 0 = Sunday … 6 = Saturday.  Epoch day 0 is a Thursday. -/
def jsGetDay (t : Int) : Int := (epochDay t + 4) % 7

/-- Function `weekRange(ref)` from App.tsx: the Monday 00:00:00.000 of the week of
`ref`, and the Sunday 23:59:59.999 that ends it, as epoch milliseconds. -/
def weekRange (ref : Int) : Int × Int :=
  let diffToMon := (jsGetDay ref + 6) % 7
  let start := (epochDay ref - diffToMon) * dayMs
  (start, start + 7 * dayMs - 1)

/-- The early-return filter of the `weeklyStats` loop: a card is counted when
it is done, its `completedAt` is truthy, and neither `t < start` nor
`t > end` holds (so a `NaN` completion time is counted). -/
def cardCounted (start stop : Int) (c : Card) : Bool :=
  c.done &&
    match c.completedAt with
    | none => false
    | some t => !(t.ltInt start) && !(t.gtInt stop)

/-- Output record of `weeklyStats`. -/
structure WeeklyStats where
  me : Nat
  partner : Nat
  total : Nat
  mePct : Nat
  partnerPct : Nat
  wstart : Int
  wend : Int
deriving DecidableEq, Repr

/-- Round-half-up of a rational, JS `Math.round`. -/
def jsRound (q : ℚ) : Int := ⌊q + 1 / 2⌋

/-- Integer form of `Math.round((count / total) * 100)` for naturals with `total > 0`, as an
integer computation: round-half-up of `100 * count / total` is
`⌊(200 * count + total) / (2 * total)⌋`. -/
def pctOf (count total : Nat) : Nat := (200 * count + total) / (2 * total)

/-- Function `weeklyStats` from App.tsx: counts the done cards completed inside the
week of `ref` per assignee, and derives the percentages
(`mePct = Math.round((me / total) * 100)`, `partnerPct = 100 - mePct`,
both `0` when `total` is `0`). -/
def weeklyStats (b : BoardState) (ref : Int) : WeeklyStats :=
  let r := weekRange ref
  let cs := b.cards.map Prod.snd
  let me := cs.countP (fun c => cardCounted r.1 r.2 c && c.assignee == some .me)
  let partner :=
    cs.countP (fun c => cardCounted r.1 r.2 c && c.assignee == some .partner)
  let total := me + partner
  let mePct : Nat := if total = 0 then 0 else pctOf me total
  let partnerPct : Nat := if total = 0 then 0 else 100 - mePct
  { me := me, partner := partner, total := total,
    mePct := mePct, partnerPct := partnerPct, wstart := r.1, wend := r.2 }

/-! ## Board Store operations -/

/-- Direction argument of the directional `moveCard` (`'left' | 'right'`). -/
inductive Dir where
  | left : Dir
  | right : Dir
deriving DecidableEq, Repr

/-- JS `String.prototype.trim`: strips whitespace from both ends.  (Defined
on the character list so that it reduces in the kernel; ASCII whitespace,
which is all the claims exercise, is handled exactly as in JS.) -/
def jsTrim (s : String) : String :=
  String.mk
    (((s.data.dropWhile Char.isWhitespace).reverse.dropWhile
        Char.isWhitespace).reverse)

/-- Handler `addCard(columnId)` from App.tsx, with the form state (`newTitle`,
`assignee`, `due`) and the generated `uid()` passed explicitly.  A title that
trims to the empty string (falsy) is a silent no-op; an unknown column id
makes `prev.columns[columnId].cardIds` throw (`none`).  Otherwise the new
card (trimmed title, `done` absent = false, no `completedAt`) is recorded and
its id is prepended to the column's `cardIds`. -/
def addCard (id : String) (newTitle : String) (assignee : Option Assignee)
    (due : Option JsNum) (columnId : String) (b : BoardState) :
    Option BoardState :=
  if jsTrim newTitle = "" then some b
  else
    match recordGet b.columns columnId with
    | none => none
    | some col =>
      let card : Card :=
        { id := id, title := jsTrim newTitle, assignee := assignee,
          dueDate := due }
      some { b with
        cards := recordSet b.cards id card,
        columns := recordSet b.columns columnId
          { col with cardIds := id :: col.cardIds } }

/-- Handler `toggleDone(cardId)` from App.tsx, with `new Date()` passed explicitly.
Reads `prev.cards[cardId].done` (throws, i.e. `none`, when the card id is
unknown), flips it, and sets `completedAt` to `now` on a false→true
transition or to `undefined` on a true→false one. -/
def toggleDone (now : Int) (cardId : String) (b : BoardState) :
    Option BoardState :=
  match recordGet b.cards cardId with
  | none => none
  | some c =>
    let nextDone := !c.done
    some { b with
      cards := recordSet b.cards cardId
        { c with done := nextDone,
                 completedAt := if nextDone then some (.val now) else none } }

/-- JS `Array.prototype.indexOf`: index of the first occurrence, `-1` when
absent. -/
def jsIndexOf (l : List String) (s : String) : Int :=
  if s ∈ l then (l.indexOf s : Int) else -1

/-- The target index computed by the directional `moveCard`: the index of
`from_` in `order` (JS `indexOf`, `-1` when absent) stepped by ±1. -/
def stepIndex (order : List String) (from_ : String) (direction : Dir) : Int :=
  if direction = .left then jsIndexOf order from_ - 1
  else jsIndexOf order from_ + 1

/-- The directional `moveCard(cardId, from, direction)` from App.tsx.
Computes the adjacent column by stepping `columnOrder` by ±1 from the index
of `from`; returns early (no-op) when the step leaves the bounds.  Otherwise
it removes every occurrence of `cardId` from the `from` column (a `filter`)
and prepends `cardId` to the adjacent column, throwing (`none`) when either
column id is missing from `columns`. -/
def moveCard (cardId : String) (from_ : String) (direction : Dir)
    (b : BoardState) : Option BoardState :=
  let order := b.columnOrder
  let toIndex := stepIndex order from_ direction
  if toIndex < 0 ∨ (order.length : Int) ≤ toIndex then some b
  else
    match order[toIndex.toNat]? with
    | none => none
    | some toId =>
      match recordGet b.columns from_, recordGet b.columns toId with
      | some fcol, some tcol =>
        let fromIds := fcol.cardIds.filter (fun i => i != cardId)
        let toIds := cardId :: tcol.cardIds
        some { b with
          columns := recordSet
            (recordSet b.columns from_ { fcol with cardIds := fromIds })
            toId { tcol with cardIds := toIds } }
      | _, _ => none

/-- The seeded sample board (`initialState` in App.tsx).  The two due dates
are computed from `Date.now()` at module load, passed here as `loadNow`. -/
def initialState (loadNow : Int) : BoardState :=
  { cards :=
      [("c1", { id := "c1", title := "Book dentist",
                assignee := some .partner,
                dueDate := some (.val (loadNow + 1000 * 60 * 60 * 20)) }),
       ("c2", { id := "c2", title := "Plan date night",
                assignee := some .me }),
       ("c3", { id := "c3", title := "Order groceries",
                dueDate := some (.val (loadNow + 1000 * 60 * 60 * 2)) })],
    columns :=
      [("todo", { id := "todo", title := "To Do", cardIds := ["c1", "c3"] }),
       ("doing", { id := "doing", title := "Doing", cardIds := ["c2"] }),
       ("done", { id := "done", title := "Done", cardIds := [] })],
    columnOrder := ["todo", "doing", "done"] }

/-- Handler `clearBoard` from App.tsx: discards the persisted record and restores the
module-level seed board. -/
def clearBoard (loadNow : Int) (_b : BoardState) : BoardState :=
  initialState loadNow

/-- Modelled from the spec: `moveWithinColumn(cardId, columnId, direction)`
is listed in §4.1 of the specification but has no implementation in `src/`.
Following the spec's words, it swaps the card's position with its immediate
neighbor in the column's `cardIds` in the given direction, and is a no-op at
the boundary (and when the column or the card is not found). -/
def moveWithinColumn (cardId : String) (columnId : String) (direction : Dir)
    (b : BoardState) : BoardState :=
  match recordGet b.columns columnId with
  | none => b
  | some col =>
    match col.cardIds.findIdx? (fun i => i == cardId) with
    | none => b
    | some i =>
      let j : Int := if direction = .left then (i : Int) - 1 else (i : Int) + 1
      if j < 0 ∨ (col.cardIds.length : Int) ≤ j then b
      else
        let a := col.cardIds.getD i ""
        let bb := col.cardIds.getD j.toNat ""
        let swapped := (col.cardIds.set i bb).set j.toNat a
        { b with
          columns := recordSet b.columns columnId
            { col with cardIds := swapped } }

/-! ## Record (association-list) lemmas -/

theorem any_key_iff {α : Type} (r : List (String × α)) (k : String) :
    r.any (fun q => q.fst == k) = true ↔ k ∈ recordKeys r := by
  rw [List.any_eq_true]
  constructor
  · rintro ⟨q, hq, he⟩
    simp only [beq_iff_eq] at he
    exact he ▸ List.mem_map_of_mem Prod.fst hq
  · intro h
    obtain ⟨q, hq, he⟩ := List.mem_map.mp h
    exact ⟨q, hq, by simp [he]⟩

theorem recordSet_cons_ne {α : Type} (p : String × α) (r : List (String × α))
    (k : String) (v : α) (h : p.1 ≠ k) :
    recordSet (p :: r) k v = p :: recordSet r k v := by
  by_cases hr : r.any (fun q => q.fst == k)
  · simp [recordSet, hr, h]
  · simp [recordSet, hr, h]

theorem recordGet_cons {α : Type} (p : String × α) (r : List (String × α))
    (k : String) :
    recordGet (p :: r) k = if p.1 = k then some p.2 else recordGet r k := by
  unfold recordGet
  by_cases h : p.1 = k
  · rw [List.find?_cons_of_pos _ (by simp [h]), if_pos h]
  · rw [List.find?_cons_of_neg _ (by simp [h]), if_neg h]

theorem recordGet_recordSet_self {α : Type} (r : List (String × α))
    (k : String) (v : α) : recordGet (recordSet r k v) k = some v := by
  induction r with
  | nil => simp [recordSet, recordGet, List.find?]
  | cons p r ih =>
    by_cases h : p.1 = k
    · by_cases hr : r.any (fun q => q.fst == k)
      · simp [recordSet, hr, h, recordGet, List.find?]
      · simp [recordSet, hr, h, recordGet, List.find?]
    · rw [recordSet_cons_ne p r k v h, recordGet_cons, if_neg h, ih]

theorem recordGet_map_repl {α : Type} (r : List (String × α))
    (k k' : String) (v : α) (h : k' ≠ k) :
    recordGet (r.map (fun q => if q.fst == k then (k, v) else q)) k'
      = recordGet r k' := by
  induction r with
  | nil => simp [recordGet]
  | cons q r ih =>
    rw [List.map_cons]
    by_cases hq : q.1 = k
    · rw [if_pos (by simp [hq]), recordGet_cons, recordGet_cons,
        if_neg (Ne.symm h), if_neg (hq ▸ Ne.symm h), ih]
    · rw [if_neg (by simp [hq]), recordGet_cons, recordGet_cons, ih]

theorem recordGet_append_single_ne {α : Type} (r : List (String × α))
    (k k' : String) (v : α) (h : k' ≠ k) :
    recordGet (r ++ [(k, v)]) k' = recordGet r k' := by
  induction r with
  | nil =>
    rw [List.nil_append, recordGet_cons, if_neg (Ne.symm h)]
  | cons p r ih =>
    rw [List.cons_append, recordGet_cons, recordGet_cons, ih]

theorem recordGet_recordSet_ne {α : Type} (r : List (String × α))
    (k k' : String) (v : α) (h : k' ≠ k) :
    recordGet (recordSet r k v) k' = recordGet r k' := by
  unfold recordSet
  by_cases hr : r.any (fun q => q.fst == k)
  · rw [if_pos hr, recordGet_map_repl r k k' v h]
  · rw [if_neg hr, recordGet_append_single_ne r k k' v h]

theorem recordKeys_recordSet_mem {α : Type} (r : List (String × α))
    (k : String) (v : α) (h : k ∈ recordKeys r) :
    recordKeys (recordSet r k v) = recordKeys r := by
  have hr : r.any (fun q => q.fst == k) = true := (any_key_iff r k).mpr h
  have hfun : (fun q : String × α =>
      (if q.fst == k then (k, v) else q).1) = Prod.fst := by
    funext q
    by_cases hq : q.1 = k <;> simp [hq]
  simp only [recordSet, hr, if_pos, recordKeys, List.map_map, Function.comp_def]
  rw [show (fun q : String × α => (if q.1 == k then (k, v) else q).1)
        = Prod.fst from hfun]

theorem recordKeys_recordSet_not_mem {α : Type} (r : List (String × α))
    (k : String) (v : α) (h : k ∉ recordKeys r) :
    recordKeys (recordSet r k v) = recordKeys r ++ [k] := by
  have hr : r.any (fun q => q.fst == k) = false := by
    rw [← Bool.not_eq_true, any_key_iff]
    exact h
  simp [recordSet, hr, recordKeys]

theorem recordGet_mem_keys {α : Type} {r : List (String × α)} {k : String}
    {v : α} (h : recordGet r k = some v) : k ∈ recordKeys r := by
  unfold recordGet at h
  cases hf : r.find? (fun p => p.fst == k) with
  | none => rw [hf] at h; exact absurd h (by simp)
  | some p =>
    rw [hf] at h
    have hp := List.find?_some hf
    have hm := List.mem_of_find?_eq_some hf
    simp only [beq_iff_eq] at hp
    exact hp ▸ List.mem_map_of_mem Prod.fst hm

theorem recordGet_entry_mem {α : Type} {r : List (String × α)} {k : String}
    {v : α} (h : recordGet r k = some v) : (k, v) ∈ r := by
  unfold recordGet at h
  cases hf : r.find? (fun p => p.fst == k) with
  | none => rw [hf] at h; exact absurd h (by simp)
  | some p =>
    rw [hf] at h
    have hp := List.find?_some hf
    have hm := List.mem_of_find?_eq_some hf
    simp only [beq_iff_eq] at hp
    cases h
    cases p
    cases hp
    exact hm

theorem mem_recordSet {α : Type} {r : List (String × α)} {k : String}
    {v : α} {p : String × α} (h : p ∈ recordSet r k v) :
    p = (k, v) ∨ p ∈ r := by
  unfold recordSet at h
  by_cases hr : r.any (fun q => q.fst == k)
  · rw [if_pos hr] at h
    obtain ⟨q, hq, he⟩ := List.mem_map.mp h
    by_cases hqk : q.1 = k
    · simp only [hqk, beq_self_eq_true, if_pos] at he
      exact Or.inl he.symm
    · simp only [beq_iff_eq, hqk, ite_false] at he
      exact Or.inr (he ▸ hq)
  · rw [if_neg hr] at h
    rcases List.mem_append.mp h with hm | hm
    · exact Or.inr hm
    · exact Or.inl (List.mem_singleton.mp hm)

/-! ## C2: dueStatus characterization -/

/-- Claim C2.  For every card with a due timestamp and `done = false`, `dueStatus`
returns `overdue` exactly when `dueDate ≤ now`, `soon` exactly when
`0 < dueDate - now ≤ 24` hours, and `none` otherwise; in particular
`dueDate = now` yields `overdue`, `dueDate = now + 24h` yields `soon`, and
`dueDate = now + 24h + 1ms` yields `none`. -/
theorem dueStatus_characterization (c : Card) (now d : Int)
    (hdue : c.dueDate = some (.val d)) (hdone : c.done = false) :
    (dueStatus now c = some .overdue ↔ d ≤ now) ∧
    (dueStatus now c = some .soon ↔ 0 < d - now ∧ d - now ≤ dayMs) ∧
    (dueStatus now c = none ↔ now + dayMs < d) ∧
    (d = now → dueStatus now c = some .overdue) ∧
    (d = now + dayMs → dueStatus now c = some .soon) ∧
    (d = now + dayMs + 1 → dueStatus now c = none) := by
  have he : dueStatus now c =
      (if d - now ≤ 0 then some .overdue
       else if d - now ≤ dayMs then some .soon else none) := by
    rw [dueStatus, hdue, hdone]
    simp
  rw [he]
  refine ⟨?_, ?_, ?_, ?_, ?_, ?_⟩ <;>
    · split_ifs with h1 h2 <;> simp_all [dayMs] <;> omega

/-- Witness for C2 at the three boundary inputs of the claim. -/
theorem dueStatus_characterization_witness :
    dueStatus 1000 { id := "x", title := "t", dueDate := some (.val 1000) }
      = some .overdue ∧
    dueStatus 1000
      { id := "x", title := "t", dueDate := some (.val (1000 + dayMs)) }
      = some .soon ∧
    dueStatus 1000
      { id := "x", title := "t", dueDate := some (.val (1000 + dayMs + 1)) }
      = none :=
  ⟨(dueStatus_characterization _ 1000 1000 rfl rfl).2.2.2.1 rfl,
   (dueStatus_characterization _ 1000 (1000 + dayMs) rfl rfl).2.2.2.2.1 rfl,
   (dueStatus_characterization _ 1000 (1000 + dayMs + 1) rfl rfl).2.2.2.2.2 rfl⟩

/-! ## C7: directional moveCard is a no-op out of bounds -/

/-- Claim C7.  The directional `moveCard` leaves the board unchanged whenever
stepping `columnOrder` by one in the given direction leaves the bounds of
`columnOrder`; in particular there is no wraparound and moving left from the
first column is a no-op. -/
theorem moveCard_no_op_out_of_bounds (b : BoardState) (cardId from_ : String)
    (direction : Dir)
    (h : stepIndex b.columnOrder from_ direction < 0 ∨
         (b.columnOrder.length : Int) ≤ stepIndex b.columnOrder from_ direction) :
    moveCard cardId from_ direction b = some b := by
  unfold moveCard
  exact if_pos h

/-- Witness for C7: moving `c1` left out of the first column of the seed
board's `columnOrder` is a no-op. -/
theorem moveCard_no_op_out_of_bounds_witness :
    moveCard "c1" "todo" .left (initialState 0) = some (initialState 0) :=
  moveCard_no_op_out_of_bounds (initialState 0) "c1" "todo" .left
    (by decide)

/-! ## C8: addCard trims the title; silent no-op on whitespace -/

/-- Claim C8.  `addCard` with a title that trims to the empty string is a silent
no-op (board unchanged, for every column id); otherwise, when the target
column exists and the generated id is fresh, it records a new card with
`done = false` (and no `completedAt`) and prepends the id to the target
column's `cardIds`. -/
theorem addCard_spec (b : BoardState) (columnId id title : String)
    (asg : Option Assignee) (due : Option JsNum) :
    (jsTrim title = "" → addCard id title asg due columnId b = some b) ∧
    (jsTrim title ≠ "" → id ∉ recordKeys b.cards →
      ∀ col, recordGet b.columns columnId = some col →
        ∃ b', addCard id title asg due columnId b = some b' ∧
          recordGet b'.cards id = some
            { id := id, title := jsTrim title, assignee := asg,
              dueDate := due, done := false, completedAt := none } ∧
          recordGet b'.columns columnId = some
            { col with cardIds := id :: col.cardIds } ∧
          recordKeys b'.cards = recordKeys b.cards ++ [id]) := by
  constructor
  · intro ht
    rw [addCard, if_pos ht]
  · intro ht hfresh col hcol
    have he : addCard id title asg due columnId b = some { b with
        cards := recordSet b.cards id
          { id := id, title := jsTrim title, assignee := asg,
            dueDate := due, done := false, completedAt := none },
        columns := recordSet b.columns columnId
          { col with cardIds := id :: col.cardIds } } := by
      rw [addCard, if_neg ht, hcol]
    exact ⟨_, he, recordGet_recordSet_self _ _ _,
      recordGet_recordSet_self _ _ _,
      recordKeys_recordSet_not_mem _ _ _ hfresh⟩

/-- Witness for C8: on the seed board, a whitespace-only title is a no-op and
a real title is recorded with `done = false` at the head of `todo`. -/
theorem addCard_spec_witness :
    addCard "z9" "  " none none "todo" (initialState 0)
      = some (initialState 0) ∧
    ∃ b', addCard "z9" " hi " none none "todo" (initialState 0) = some b' ∧
      recordGet b'.cards "z9" = some
        { id := "z9", title := "hi", assignee := none, dueDate := none,
          done := false, completedAt := none } ∧
      recordGet b'.columns "todo" = some
        { id := "todo", title := "To Do", cardIds := ["z9", "c1", "c3"] } ∧
      recordKeys b'.cards = recordKeys (initialState 0).cards ++ ["z9"] :=
  ⟨(addCard_spec (initialState 0) "todo" "z9" "  " none none).1 (by decide),
   (addCard_spec (initialState 0) "todo" "z9" " hi " none none).2
     (by decide) (by decide)
     { id := "todo", title := "To Do", cardIds := ["c1", "c3"] } rfl⟩

/-! ## C5: toggleDone and the completedAt-iff-done invariant -/

/-- The §3 card invariant: `completedAt` is present exactly when `done` is
true, for every card stored on the board. -/
def CompletedIffDone (b : BoardState) : Prop :=
  ∀ p ∈ b.cards, (p : String × Card).2.completedAt.isSome = p.2.done

instance (b : BoardState) : Decidable (CompletedIffDone b) :=
  List.decidableBAll _ b.cards

/-- Claim C5.  `toggleDone` on an existing card flips `done`, sets `completedAt`
to the current timestamp on a false→true transition and clears it on a
true→false one; and the invariant that `completedAt` is present iff `done`
is true is preserved by every operation (and holds for the reset board). -/
theorem toggleDone_completedAt_invariant (b : BoardState)
    (hinv : CompletedIffDone b) :
    (∀ now cardId c, recordGet b.cards cardId = some c →
      ∃ b', toggleDone now cardId b = some b' ∧
        recordGet b'.cards cardId = some
          { c with done := !c.done,
                   completedAt := if c.done then none
                                  else some (.val now) } ∧
        CompletedIffDone b') ∧
    (∀ id title asg due colId b',
      addCard id title asg due colId b = some b' → CompletedIffDone b') ∧
    (∀ cardId from_ direction b',
      moveCard cardId from_ direction b = some b' → CompletedIffDone b') ∧
    (∀ loadNow, CompletedIffDone (clearBoard loadNow b)) := by
  refine ⟨?_, ?_, ?_, ?_⟩
  · intro now cardId c hc
    have he : toggleDone now cardId b = some { b with
        cards := recordSet b.cards cardId
          { c with done := !c.done,
                   completedAt := if !c.done then some (.val now)
                                  else none } } := by
      rw [toggleDone, hc]
    refine ⟨_, he, ?_, ?_⟩
    · cases hcd : c.done <;>
        simp only [hcd, Bool.not_false, Bool.not_true, ite_true, ite_false] <;>
        exact recordGet_recordSet_self _ _ _
    · intro p hp
      rcases mem_recordSet hp with hpe | hpm
      · subst hpe
        cases c.done <;> rfl
      · exact hinv p hpm
  · intro id title asg due colId b' h
    unfold addCard at h
    split at h
    · cases h
      exact hinv
    · split at h
      · cases h
      · cases h
        intro p hp
        rcases mem_recordSet hp with hpe | hpm
        · subst hpe
          rfl
        · exact hinv p hpm
  · intro cardId from_ direction b' h
    simp only [moveCard] at h
    split at h
    · cases h
      exact hinv
    · split at h
      · cases h
      · split at h
        · cases h
          exact hinv
        · cases h
  · intro loadNow p hp
    simp only [clearBoard, initialState, List.mem_cons,
      List.not_mem_nil, or_false] at hp
    rcases hp with h | h | h <;> subst h <;> rfl

/-- Witness for C5: toggling the not-done seed card `c2` at time 42 marks it
done with `completedAt = 42`, preserving the invariant. -/
theorem toggleDone_completedAt_invariant_witness :
    ∃ b', toggleDone 42 "c2" (initialState 0) = some b' ∧
      recordGet b'.cards "c2" = some
        { id := "c2", title := "Plan date night", assignee := some .me,
          dueDate := none, done := true, completedAt := some (.val 42) } ∧
      CompletedIffDone b' :=
  (toggleDone_completedAt_invariant (initialState 0) (by decide)).1 42 "c2"
    { id := "c2", title := "Plan date night", assignee := some .me } rfl

/-! ## C6: toggleDone twice -/

/-- The card obtained by applying `toggleDone` twice to `cardId` (at times
`now1`, `now2`) and reading the card back. -/
def toggleTwiceCard (now1 now2 : Int) (cardId : String) (b : BoardState) :
    Option Card :=
  ((toggleDone now1 cardId b).bind (toggleDone now2 cardId)).bind
    (fun b2 => recordGet b2.cards cardId)

/-- A board whose single card violates the §3 card invariant: `done = true`
with `completedAt` absent. -/
def doneNoStampBoard : BoardState :=
  { cards := [("x", { id := "x", title := "Pay rent", done := true })],
    columns := [("todo", { id := "todo", title := "To Do",
                            cardIds := ["x"] })],
    columnOrder := ["todo"] }

/-- Counterexample to C6 as stated: on a board whose card has `done = true`
and `completedAt` absent, two `toggleDone`s leave `completedAt` present
(set at the second toggle), not absent. -/
theorem toggleDone_twice_counterexample :
    (recordGet doneNoStampBoard.cards "x").map
        (fun c => (c.done, c.completedAt)) = some (true, none) ∧
    (toggleTwiceCard 3 5 "x" doneNoStampBoard).map
        (fun c => c.completedAt) = some (some (.val 5)) :=
  ⟨rfl, rfl⟩

theorem toggleTwiceCard_eq (b : BoardState) (now1 now2 : Int)
    (cardId : String) (c : Card) (hc : recordGet b.cards cardId = some c) :
    toggleTwiceCard now1 now2 cardId b = some
      { c with done := c.done,
               completedAt := if c.done then some (.val now2) else none } := by
  unfold toggleTwiceCard
  rw [toggleDone, hc, Option.some_bind, toggleDone]
  dsimp only
  rw [recordGet_recordSet_self, Option.some_bind]
  dsimp only
  rw [recordGet_recordSet_self]
  cases hcd : c.done <;> simp [hcd]

/-- Claim C6 (amended).  For every board and existing card id, two `toggleDone`s
return `done` to its original value, and `completedAt` is absent afterwards
whenever the card was not done before (in particular whenever `completedAt`
was absent on a board satisfying the §3 completedAt-iff-done invariant). -/
theorem toggleDone_twice_roundtrip (b : BoardState) (now1 now2 : Int)
    (cardId : String) (c : Card) (hc : recordGet b.cards cardId = some c) :
    (toggleTwiceCard now1 now2 cardId b).map Card.done = some c.done ∧
    (c.done = false →
      (toggleTwiceCard now1 now2 cardId b).map Card.completedAt
        = some none) := by
  rw [toggleTwiceCard_eq b now1 now2 cardId c hc]
  refine ⟨rfl, ?_⟩
  intro h
  simp [h]

/-- Witness for C6 (amended) on the seed card `c2` (not done, no stamp). -/
theorem toggleDone_twice_roundtrip_witness :
    (toggleTwiceCard 3 5 "c2" (initialState 0)).map Card.done = some false ∧
    (toggleTwiceCard 3 5 "c2" (initialState 0)).map Card.completedAt
      = some none :=
  ⟨(toggleDone_twice_roundtrip (initialState 0) 3 5 "c2"
      { id := "c2", title := "Plan date night", assignee := some .me }
      rfl).1,
   (toggleDone_twice_roundtrip (initialState 0) 3 5 "c2"
      { id := "c2", title := "Plan date night", assignee := some .me }
      rfl).2 rfl⟩

/-! ## C4: weeklyStats percentages -/

theorem pctOf_eq_jsRound (c t : Nat) (ht : 0 < t) :
    ((pctOf c t : Nat) : Int) = jsRound ((c : ℚ) / (t : ℚ) * 100) := by
  have ht0 : ((t : ℚ)) ≠ 0 := by
    exact_mod_cast Nat.pos_iff_ne_zero.mp ht
  have harg : (c : ℚ) / (t : ℚ) * 100 + 1 / 2
      = (((200 * c + t : ℕ) : ℤ) : ℚ) / ((2 * t : ℕ) : ℚ) := by
    push_cast
    field_simp
    ring
  rw [jsRound, harg, Rat.floor_intCast_div_natCast]
  rw [pctOf]
  push_cast
  rfl

theorem pctOf_le_100 (c t : Nat) (hc : c ≤ t) (ht : 0 < t) :
    pctOf c t ≤ 100 := by
  have h2 : 0 < 2 * t := by omega
  have hlt := (Nat.div_lt_iff_lt_mul h2).mpr
    (show 200 * c + t < 101 * (2 * t) by omega)
  unfold pctOf
  omega

theorem weeklyPct_cases (m p : Nat) :
    (m + p = 0 →
      (if m + p = 0 then 0 else pctOf m (m + p)) = 0 ∧
      (if m + p = 0 then (0 : Nat) else
        100 - (if m + p = 0 then 0 else pctOf m (m + p))) = 0) ∧
    (0 < m + p →
      (((if m + p = 0 then 0 else pctOf m (m + p)) : Nat) : Int)
          = jsRound ((m : ℚ) / ((m + p : ℕ) : ℚ) * 100) ∧
      (if m + p = 0 then (0 : Nat) else
        100 - (if m + p = 0 then 0 else pctOf m (m + p)))
        = 100 - (if m + p = 0 then 0 else pctOf m (m + p)) ∧
      (if m + p = 0 then 0 else pctOf m (m + p)) +
        (if m + p = 0 then (0 : Nat) else
          100 - (if m + p = 0 then 0 else pctOf m (m + p))) = 100) := by
  constructor
  · intro h0
    simp only [if_pos h0]
    exact ⟨trivial, trivial⟩
  · intro hpos
    have hne := Nat.pos_iff_ne_zero.mp hpos
    simp only [if_neg hne]
    refine ⟨pctOf_eq_jsRound m (m + p) hpos, trivial, ?_⟩
    have hle := pctOf_le_100 m (m + p) (by omega) hpos
    omega

/-- Claim C4.  `weeklyLoadShare` returns `mePercent = round(meCount / totalCount
* 100)` and `partnerPercent = 100 - mePercent` whenever `totalCount > 0`,
and both percentages are `0` when `totalCount = 0`; hence the percentages
sum to 100 exactly when `totalCount > 0`. -/
theorem weeklyStats_percentages (b : BoardState) (ref : Int) :
    ((weeklyStats b ref).total = 0 →
      (weeklyStats b ref).mePct = 0 ∧ (weeklyStats b ref).partnerPct = 0) ∧
    (0 < (weeklyStats b ref).total →
      ((weeklyStats b ref).mePct : Int)
          = jsRound (((weeklyStats b ref).me : ℚ)
              / ((weeklyStats b ref).total : ℚ) * 100) ∧
      (weeklyStats b ref).partnerPct = 100 - (weeklyStats b ref).mePct ∧
      (weeklyStats b ref).mePct + (weeklyStats b ref).partnerPct = 100) :=
  weeklyPct_cases
    ((b.cards.map Prod.snd).countP
      (fun c => cardCounted (weekRange ref).1 (weekRange ref).2 c
        && c.assignee == some .me))
    ((b.cards.map Prod.snd).countP
      (fun c => cardCounted (weekRange ref).1 (weekRange ref).2 c
        && c.assignee == some .partner))

/-- A one-card board whose card is done by `Me` inside the week of
reference instant 0. -/
def doneMeBoard : BoardState :=
  { cards := [("m1", { id := "m1", title := "Laundry",
                       assignee := some .me, done := true,
                       completedAt := some (.val 0) })],
    columns := [("done", { id := "done", title := "Done",
                           cardIds := ["m1"] })],
    columnOrder := ["done"] }

/-- Witness for C4: a board with `totalCount = 1` has percentages summing
to 100, and the seed board (no completed card) has both percentages 0. -/
theorem weeklyStats_percentages_witness :
    (weeklyStats doneMeBoard 0).mePct
        + (weeklyStats doneMeBoard 0).partnerPct = 100 ∧
    ((weeklyStats (initialState 0) 0).mePct = 0 ∧
      (weeklyStats (initialState 0) 0).partnerPct = 0) :=
  ⟨((weeklyStats_percentages doneMeBoard 0).2 (by decide)).2.2,
   (weeklyStats_percentages (initialState 0) 0).1 (by decide)⟩

/-! ## C3: weeklyStats counts exactly the cards completed in the week -/

/-- Stated from the spec's words (§4.3): a card counts toward the split iff
`done = true`, `completedAt` is set to a timestamp, and that timestamp lies
inclusively within the week window. -/
def countedPerSpec (start stop : Int) (c : Card) : Bool :=
  c.done &&
    match c.completedAt with
    | some (.val t) => decide (start ≤ t) && decide (t ≤ stop)
    | _ => false

theorem cardCounted_eq_spec (s e : Int) (c : Card)
    (h : c.completedAt ≠ some .nan) :
    cardCounted s e c = countedPerSpec s e c := by
  unfold cardCounted countedPerSpec
  cases hca : c.completedAt with
  | none => rfl
  | some v =>
    cases v with
    | nan => exact absurd hca h
    | val t =>
      simp only [JsNum.ltInt, JsNum.gtInt]
      by_cases h1 : t < s
      · simp [h1, show ¬s ≤ t by omega]
      · by_cases h2 : t > e
        · simp [h1, h2, show ¬t ≤ e by omega]
        · simp [h1, h2, show s ≤ t by omega, show t ≤ e by omega]

/-- Claim C3.  The window of `weekRange` runs from a Monday midnight (day index 1,
a whole number of days since the epoch) through the last millisecond of the
following Sunday, and it contains the reference instant; and on a board
whose stored completion times all parse, `weeklyStats` counts a card toward
`me`/`partner` (per its assignee) exactly when the card is done and its
completion time lies inclusively inside the window, with
`total = me + partner`. -/
theorem weeklyStats_week_window (b : BoardState) (ref : Int)
    (hclean : ∀ p ∈ b.cards,
      (p : String × Card).2.completedAt ≠ some .nan) :
    jsGetDay (weekRange ref).1 = 1 ∧
    (weekRange ref).1 % dayMs = 0 ∧
    (weekRange ref).1 ≤ ref ∧
    ref < (weekRange ref).1 + 7 * dayMs ∧
    (weekRange ref).2 = (weekRange ref).1 + 7 * dayMs - 1 ∧
    (weeklyStats b ref).me = (b.cards.map Prod.snd).countP
      (fun c => countedPerSpec (weekRange ref).1 (weekRange ref).2 c
        && c.assignee == some .me) ∧
    (weeklyStats b ref).partner = (b.cards.map Prod.snd).countP
      (fun c => countedPerSpec (weekRange ref).1 (weekRange ref).2 c
        && c.assignee == some .partner) ∧
    (weeklyStats b ref).total
      = (weeklyStats b ref).me + (weeklyStats b ref).partner := by
  have hfd : ∀ a : ℤ, Int.fdiv a (1000 * 60 * 60 * 24)
      = a / (1000 * 60 * 60 * 24) := fun a =>
    Int.fdiv_eq_ediv a (by norm_num)
  have hcnt : ∀ q : Assignee,
      (b.cards.map Prod.snd).countP
        (fun c => cardCounted (weekRange ref).1 (weekRange ref).2 c
          && c.assignee == some q)
      = (b.cards.map Prod.snd).countP
        (fun c => countedPerSpec (weekRange ref).1 (weekRange ref).2 c
          && c.assignee == some q) := by
    intro q
    apply List.countP_congr
    intro c hc
    obtain ⟨p, hp, he⟩ := List.mem_map.mp hc
    rw [cardCounted_eq_spec _ _ c (he ▸ hclean p hp)]
  refine ⟨?_, ?_, ?_, ?_, ?_, hcnt .me, hcnt .partner, rfl⟩ <;>
    · simp only [weekRange, jsGetDay, epochDay, dayMs, hfd]
      try omega

/-- Witness for C3 on the seed board (whose completion stamps all parse)
at reference instant 0. -/
theorem weeklyStats_week_window_witness :
    jsGetDay (weekRange 0).1 = 1 ∧
    (weeklyStats (initialState 0) 0).me
      = ((initialState 0).cards.map Prod.snd).countP
        (fun c => countedPerSpec (weekRange 0).1 (weekRange 0).2 c
          && c.assignee == some .me) :=
  ⟨(weeklyStats_week_window (initialState 0) 0 (by decide)).1,
   (weeklyStats_week_window (initialState 0) 0 (by decide)).2.2.2.2.2.1⟩

/-! ## C10: an unparseable completedAt is still counted -/

/-- Claim C10.  A done card whose `completedAt` is set but parses to `NaN` passes
the `weeklyStats` filter (both `t < start` and `t > end` are false for
`NaN`), so it is counted toward its assignee's tally even though its
completion time lies inside no week window. -/
theorem weeklyStats_nan_counted (b : BoardState) (ref : Int) (c : Card)
    (hm : c ∈ b.cards.map Prod.snd) (hd : c.done = true)
    (hn : c.completedAt = some .nan) :
    cardCounted (weekRange ref).1 (weekRange ref).2 c = true ∧
    (c.assignee = some .me → 1 ≤ (weeklyStats b ref).me) ∧
    (c.assignee = some .partner → 1 ≤ (weeklyStats b ref).partner) := by
  have hcc : cardCounted (weekRange ref).1 (weekRange ref).2 c = true := by
    simp [cardCounted, hd, hn, JsNum.ltInt, JsNum.gtInt]
  refine ⟨hcc, ?_, ?_⟩
  · intro ha
    exact List.countP_pos_iff.mpr ⟨c, hm, by simp [hcc, ha]⟩
  · intro ha
    exact List.countP_pos_iff.mpr ⟨c, hm, by simp [hcc, ha]⟩

/-- A board holding one done card assigned to Me whose completion stamp
does not parse. -/
def nanStampBoard : BoardState :=
  { cards := [("n1", { id := "n1", title := "Mystery", assignee := some .me,
                       done := true, completedAt := some .nan })],
    columns := [("done", { id := "done", title := "Done",
                           cardIds := ["n1"] })],
    columnOrder := ["done"] }

/-- Witness for C10: the NaN-stamped card is tallied for Me. -/
theorem weeklyStats_nan_counted_witness :
    1 ≤ (weeklyStats nanStampBoard 0).me :=
  (weeklyStats_nan_counted nanStampBoard 0
    { id := "n1", title := "Mystery", assignee := some .me,
      done := true, completedAt := some .nan }
    (by decide) rfl rfl).2.1 rfl

/-! ## C1: columnOrder permutation and unique card placement -/

/-- All card ids spread over the columns record, in record order. -/
def allCardIds (b : BoardState) : List String :=
  (b.columns.map (fun p => p.2.cardIds)).flatten

/-- The §3 board invariants: both records have unique keys (JS object
semantics), `columnOrder` is a permutation of the column keys, and the card
ids spread over the columns are a permutation of the card keys — i.e. every
card id appears in exactly one column's `cardIds` (no duplicates within or
across columns) and every listed id references an existing card. -/
def BoardInv (b : BoardState) : Prop :=
  (recordKeys b.cards).Nodup ∧
  (recordKeys b.columns).Nodup ∧
  b.columnOrder.Perm (recordKeys b.columns) ∧
  (allCardIds b).Perm (recordKeys b.cards)

instance (b : BoardState) : Decidable (BoardInv b) :=
  inferInstanceAs (Decidable (_ ∧ _ ∧ _ ∧ _))

theorem perm_append_swap (a b c : List String) :
    (a ++ (b ++ c)).Perm (b ++ (a ++ c)) := by
  have h2 : ((a ++ b) ++ c).Perm ((b ++ a) ++ c) :=
    List.Perm.append_right c List.perm_append_comm
  rw [List.append_assoc, List.append_assoc] at h2
  exact h2

theorem recordSet_cons_eq {α : Type} (p : String × α) (r : List (String × α))
    (v : α) (hk : p.1 ∉ recordKeys r) :
    recordSet (p :: r) p.1 v = (p.1, v) :: r := by
  have hany : (p :: r).any (fun q => q.fst == p.1) = true := by simp
  unfold recordSet
  rw [if_pos hany, List.map_cons]
  have hhead : (if p.fst == p.1 then (p.1, v) else p) = (p.1, v) := by simp
  rw [hhead]
  have htail : ∀ q ∈ r, (if q.fst == p.1 then (p.1, v) else q) = q := by
    intro q hq
    have hne : q.1 ≠ p.1 := fun he =>
      hk (he ▸ List.mem_map_of_mem Prod.fst hq)
    simp [hne]
  rw [List.map_congr_left htail]
  simp

theorem recordGet_some_of_mem {α : Type} {r : List (String × α)}
    {k : String} (h : k ∈ recordKeys r) : ∃ v, recordGet r k = some v := by
  induction r with
  | nil => simp [recordKeys] at h
  | cons p r ih =>
    rw [recordGet_cons]
    by_cases hp : p.1 = k
    · exact ⟨p.2, by rw [if_pos hp]⟩
    · have h' : k ∈ recordKeys r := by
        rcases List.mem_cons.mp h with he | hm
        · exact absurd he.symm hp
        · exact hm
      obtain ⟨v, hv⟩ := ih h'
      exact ⟨v, by rw [if_neg hp, hv]⟩

theorem flatten_recordSet_perm (r : List (String × Column)) (k : String)
    (vOld vNew : Column) (hnd : (recordKeys r).Nodup)
    (hv : recordGet r k = some vOld) :
    ∃ rest : List String,
      ((r.map (fun p => p.2.cardIds)).flatten).Perm (vOld.cardIds ++ rest) ∧
      (((recordSet r k vNew).map (fun p => p.2.cardIds)).flatten).Perm
        (vNew.cardIds ++ rest) := by
  induction r with
  | nil => simp [recordGet] at hv
  | cons p r ih =>
    rw [show recordKeys (p :: r) = p.1 :: recordKeys r from rfl,
      List.nodup_cons] at hnd
    obtain ⟨hnd1, hnd2⟩ := hnd
    rw [recordGet_cons] at hv
    by_cases hp : p.1 = k
    · rw [if_pos hp] at hv
      injection hv with hv
      subst hv
      subst hp
      rw [recordSet_cons_eq p r vNew hnd1]
      refine ⟨(r.map (fun q => q.2.cardIds)).flatten, ?_, ?_⟩
      · rw [List.map_cons, List.flatten_cons]
      · rw [List.map_cons, List.flatten_cons]
    · rw [if_neg hp] at hv
      obtain ⟨rest, h1, h2⟩ := ih hnd2 hv
      rw [recordSet_cons_ne p r k vNew hp]
      refine ⟨p.2.cardIds ++ rest, ?_, ?_⟩
      · rw [List.map_cons, List.flatten_cons]
        exact (List.Perm.append_left p.2.cardIds h1).trans
          (perm_append_swap p.2.cardIds vOld.cardIds rest)
      · rw [List.map_cons, List.flatten_cons]
        exact (List.Perm.append_left p.2.cardIds h2).trans
          (perm_append_swap p.2.cardIds vNew.cardIds rest)

/-- Claim C1 (amended).  On a board satisfying the invariants, `columnOrder`
remains a permutation of the column keys and every card id keeps appearing
in exactly one column's `cardIds`, after `toggleDone` (any existing card),
after `addCard` whenever the generated id is genuinely fresh, after the
directional `moveCard` whenever the moved card actually lies in the given
source column, and after reset; and on such a board every card id occurs
exactly once across the columns.  (With fully arbitrary arguments the claim
fails: `moveCard` with a card id absent from the source column duplicates
the id — see the counterexample.) -/
theorem board_invariant_preservation (b : BoardState) (hinv : BoardInv b) :
    (∀ now cardId b', toggleDone now cardId b = some b' → BoardInv b') ∧
    (∀ id title asg due colId b', id ∉ recordKeys b.cards →
      addCard id title asg due colId b = some b' → BoardInv b') ∧
    (∀ cardId from_ direction b' fcol,
      recordGet b.columns from_ = some fcol → cardId ∈ fcol.cardIds →
      moveCard cardId from_ direction b = some b' → BoardInv b') ∧
    (∀ loadNow, BoardInv (clearBoard loadNow b)) ∧
    (∀ id, id ∈ recordKeys b.cards → (allCardIds b).count id = 1) := by
  obtain ⟨hcnd, hond, hperm, hids⟩ := hinv
  refine ⟨?_, ?_, ?_, ?_, ?_⟩
  · -- toggleDone: the columns are untouched and the card keys are unchanged
    intro now cardId b' h
    unfold toggleDone at h
    cases hg : recordGet b.cards cardId with
    | none => rw [hg] at h; cases h
    | some c =>
      rw [hg] at h
      cases h
      have hk : recordKeys (recordSet b.cards cardId
          { c with done := !c.done,
                   completedAt := if !c.done then some (.val now)
                                  else none })
          = recordKeys b.cards :=
        recordKeys_recordSet_mem _ _ _ (recordGet_mem_keys hg)
      exact ⟨hk ▸ hcnd, hond, hperm, hk ▸ hids⟩
  · -- addCard with a fresh id
    intro id title asg due colId b' hfresh h
    unfold addCard at h
    split at h
    · cases h
      exact ⟨hcnd, hond, hperm, hids⟩
    · cases hg : recordGet b.columns colId with
      | none => rw [hg] at h; cases h
      | some col =>
        rw [hg] at h
        cases h
        have hkc : recordKeys (recordSet b.cards id
            { id := id, title := jsTrim title, assignee := asg,
              dueDate := due, done := false, completedAt := none })
            = recordKeys b.cards ++ [id] :=
          recordKeys_recordSet_not_mem _ _ _ hfresh
        have hkcol : recordKeys (recordSet b.columns colId
            { col with cardIds := id :: col.cardIds })
            = recordKeys b.columns :=
          recordKeys_recordSet_mem _ _ _ (recordGet_mem_keys hg)
        obtain ⟨rest, h1, h2⟩ := flatten_recordSet_perm b.columns colId col
          { col with cardIds := id :: col.cardIds } hond hg
        refine ⟨?_, hkcol ▸ hond, hkcol ▸ hperm, ?_⟩
        · rw [hkc]
          exact (List.perm_append_singleton id _).nodup_iff.mpr
            (List.nodup_cons.mpr ⟨hfresh, hcnd⟩)
        · rw [show allCardIds { b with
              cards := recordSet b.cards id
                { id := id, title := jsTrim title, assignee := asg,
                  dueDate := due, done := false, completedAt := none },
              columns := recordSet b.columns colId
                { col with cardIds := id :: col.cardIds } }
            = ((recordSet b.columns colId
                { col with cardIds := id :: col.cardIds }).map
                  (fun p => p.2.cardIds)).flatten from rfl, hkc]
          exact h2.trans ((List.Perm.cons id (h1.symm.trans hids)).trans
            (List.perm_append_singleton id _).symm)
  · -- directional moveCard of a card that lies in the source column
    intro cardId from_ direction b' fcol hfc hmem h
    by_cases hcond : stepIndex b.columnOrder from_ direction < 0 ∨
        (b.columnOrder.length : Int)
          ≤ stepIndex b.columnOrder from_ direction
    · simp only [moveCard] at h
      rw [if_pos hcond] at h
      cases h
      exact ⟨hcnd, hond, hperm, hids⟩
    · push_neg at hcond
      obtain ⟨hge, hlt'⟩ := hcond
      have hlt : (stepIndex b.columnOrder from_ direction).toNat
          < b.columnOrder.length := by omega
      have htmem : b.columnOrder[(stepIndex b.columnOrder from_
          direction).toNat] ∈ b.columnOrder := List.getElem_mem hlt
      have htkeys : b.columnOrder[(stepIndex b.columnOrder from_
          direction).toNat] ∈ recordKeys b.columns := hperm.mem_iff.mp htmem
      obtain ⟨tcol, htc⟩ := recordGet_some_of_mem htkeys
      have hfkeys : from_ ∈ recordKeys b.columns := recordGet_mem_keys hfc
      have hford : from_ ∈ b.columnOrder := hperm.mem_iff.mpr hfkeys
      have hordnd : b.columnOrder.Nodup := hperm.nodup_iff.mpr hond
      have hidx : jsIndexOf b.columnOrder from_
          = (b.columnOrder.indexOf from_ : Int) := by
        rw [jsIndexOf, if_pos hford]
      have hidxlt : b.columnOrder.indexOf from_ < b.columnOrder.length :=
        List.indexOf_lt_length.mpr hford
      have hgetidx : b.columnOrder[b.columnOrder.indexOf from_] = from_ :=
        List.getElem_indexOf hidxlt
      have hne : b.columnOrder[(stepIndex b.columnOrder from_
          direction).toNat] ≠ from_ := by
        intro he
        have heq2 : b.columnOrder[(stepIndex b.columnOrder from_
            direction).toNat] = b.columnOrder[b.columnOrder.indexOf from_] :=
          he.trans hgetidx.symm
        have hij : (stepIndex b.columnOrder from_ direction).toNat
            = b.columnOrder.indexOf from_ :=
          (hordnd.getElem_inj_iff).mp heq2
        cases direction with
        | left =>
          rw [stepIndex, hidx, if_pos rfl] at hij hge
          omega
        | right =>
          rw [stepIndex, hidx, if_neg (by decide)] at hij hge
          omega
      have he : moveCard cardId from_ direction b = some { b with
          columns := recordSet (recordSet b.columns from_
              { fcol with cardIds :=
                  fcol.cardIds.filter (fun i => i != cardId) })
            (b.columnOrder[(stepIndex b.columnOrder from_ direction).toNat])
            { tcol with cardIds := cardId :: tcol.cardIds } } := by
        simp only [moveCard]
        rw [if_neg (by push_neg; exact ⟨hge, hlt'⟩)]
        rw [List.getElem?_eq_getElem hlt]
        dsimp only
        rw [hfc, htc]
      rw [he] at h
      cases h
      have hk1 : recordKeys (recordSet b.columns from_
          { fcol with cardIds :=
              fcol.cardIds.filter (fun i => i != cardId) })
          = recordKeys b.columns :=
        recordKeys_recordSet_mem _ _ _ hfkeys
      have hk2 : recordKeys (recordSet (recordSet b.columns from_
          { fcol with cardIds :=
              fcol.cardIds.filter (fun i => i != cardId) })
          (b.columnOrder[(stepIndex b.columnOrder from_ direction).toNat])
          { tcol with cardIds := cardId :: tcol.cardIds })
          = recordKeys (recordSet b.columns from_
          { fcol with cardIds :=
              fcol.cardIds.filter (fun i => i != cardId) }) :=
        recordKeys_recordSet_mem _ _ _ (hk1 ▸ htkeys)
      obtain ⟨rest1, h11, h12⟩ := flatten_recordSet_perm b.columns from_
        fcol { fcol with cardIds :=
          fcol.cardIds.filter (fun i => i != cardId) } hond hfc
      obtain ⟨rest2, h21, h22⟩ := flatten_recordSet_perm
        (recordSet b.columns from_
          { fcol with cardIds :=
              fcol.cardIds.filter (fun i => i != cardId) })
        (b.columnOrder[(stepIndex b.columnOrder from_ direction).toNat])
        tcol { tcol with cardIds := cardId :: tcol.cardIds }
        (hk1 ▸ hond) (by
          rw [recordGet_recordSet_ne _ _ _ _ hne]
          exact htc)
      have hidsnd : (allCardIds b).Nodup := hids.nodup_iff.mpr hcnd
      have hfnd : fcol.cardIds.Nodup :=
        ((h11.nodup_iff.mp hidsnd)).of_append_left
      have hsplit : fcol.cardIds.Perm
          (cardId :: fcol.cardIds.filter (fun i => i != cardId)) := by
        have h3 := List.perm_cons_erase hmem
        rwa [List.Nodup.erase_eq_filter hfnd cardId] at h3
      have hmain : (((recordSet (recordSet b.columns from_
          { fcol with cardIds :=
              fcol.cardIds.filter (fun i => i != cardId) })
          (b.columnOrder[(stepIndex b.columnOrder from_ direction).toNat])
          { tcol with cardIds := cardId :: tcol.cardIds }).map
            (fun p => p.2.cardIds)).flatten).Perm (allCardIds b) :=
        (h22.trans (List.Perm.cons cardId (h21.symm.trans h12))).trans
          (h11.trans (hsplit.append_right rest1)).symm
      exact ⟨hcnd, hk2 ▸ hk1 ▸ hond, hk2 ▸ hk1 ▸ hperm,
        hmain.trans hids⟩
  · -- reset restores the seed board, which satisfies the invariants
    intro loadNow
    refine ⟨?_, ?_, ?_, ?_⟩
    · show (["c1", "c2", "c3"] : List String).Nodup
      decide
    · show (["todo", "doing", "done"] : List String).Nodup
      decide
    · show (["todo", "doing", "done"] : List String).Perm
        ["todo", "doing", "done"]
      exact List.Perm.refl _
    · show (["c1", "c3", "c2"] : List String).Perm ["c1", "c2", "c3"]
      decide
  · -- consequence: each card id occurs exactly once across the columns
    intro id hid
    exact (hids.count_eq id).trans (List.count_eq_one_of_mem hcnd hid)

/-- Counterexample to C1 as stated: the seed board is reachable and
satisfies the invariants, yet the directional `moveCard` applied with a
card id (`c1`) that is not in the given source column (`doing`) produces a
board where `c1` appears in two columns (`todo` and `done`): its count
across all columns is 2, not 1. -/
theorem board_invariant_counterexample :
    BoardInv (initialState 0) ∧
    "c1" ∈ recordKeys (initialState 0).cards ∧
    (moveCard "c1" "doing" .right (initialState 0)).map
      (fun b => (allCardIds b).count "c1") = some 2 :=
  ⟨by decide, by decide, by decide⟩

/-- Witness for C1 (amended): the reset board satisfies the invariants, and
on the seed board each card id occurs exactly once across the columns. -/
theorem board_invariant_preservation_witness :
    BoardInv (clearBoard 7 (initialState 0)) ∧
    (allCardIds (initialState 0)).count "c2" = 1 :=
  ⟨(board_invariant_preservation (initialState 0) (by decide)).2.2.2.1 7,
   (board_invariant_preservation (initialState 0) (by decide)).2.2.2.2 "c2"
     (by decide)⟩

/-! ## C9: moveWithinColumn (modelled from the spec) -/

/-- Claim C9 (spec-modelled).  `moveWithinColumn` swaps the card found at index
`i` of the column's `cardIds` with its immediate neighbor in the given
direction, and is a no-op when the step leaves the bounds of the sequence:
afterwards the card sits at the neighbor index, the neighbor's id sits at
`i`, every other position is unchanged, and the length is preserved. -/
theorem moveWithinColumn_swap (b : BoardState) (columnId cardId : String)
    (direction : Dir) (col : Column) (i : Nat)
    (hcol : recordGet b.columns columnId = some col)
    (hidx : col.cardIds.findIdx? (fun s => s == cardId) = some i) :
    ((if direction = .left then (i : Int) - 1 else (i : Int) + 1) < 0 ∨
      (col.cardIds.length : Int)
        ≤ (if direction = .left then (i : Int) - 1 else (i : Int) + 1) →
      moveWithinColumn cardId columnId direction b = b) ∧
    (∀ j : Nat,
      (j : Int) = (if direction = .left then (i : Int) - 1
                   else (i : Int) + 1) →
      j < col.cardIds.length →
      ∃ col', recordGet (moveWithinColumn cardId columnId direction
          b).columns columnId = some col' ∧
        col'.cardIds.length = col.cardIds.length ∧
        col.cardIds.getD i "" = cardId ∧
        col'.cardIds.getD j "" = cardId ∧
        col'.cardIds.getD i "" = col.cardIds.getD j "" ∧
        ∀ k, k ≠ i → k ≠ j →
          col'.cardIds.getD k "" = col.cardIds.getD k "") := by
  obtain ⟨hilt, hpi, -⟩ := List.findIdx?_eq_some_iff_getElem.mp hidx
  have hieq : col.cardIds[i] = cardId := by
    simpa using hpi
  constructor
  · intro hb
    unfold moveWithinColumn
    rw [hcol]
    dsimp only
    rw [hidx]
    dsimp only
    rw [if_pos hb]
  · intro j hj hjlt
    have hij : i ≠ j := by
      cases direction with
      | left =>
        rw [if_pos rfl] at hj
        omega
      | right =>
        rw [if_neg (by decide)] at hj
        omega
    have hnb : ¬((if direction = .left then (i : Int) - 1
        else (i : Int) + 1) < 0 ∨
        (col.cardIds.length : Int)
          ≤ (if direction = .left then (i : Int) - 1
             else (i : Int) + 1)) := by
      rw [← hj]
      push_neg
      constructor <;> omega
    have htn : (if direction = .left then (i : Int) - 1
        else (i : Int) + 1).toNat = j := by
      rw [← hj]
      exact Int.toNat_natCast j
    have he : moveWithinColumn cardId columnId direction b = { b with
        columns := recordSet b.columns columnId
          { col with cardIds :=
              ((col.cardIds.set i (col.cardIds.getD j "")).set j
                (col.cardIds.getD i "")) } } := by
      unfold moveWithinColumn
      rw [hcol]
      dsimp only
      rw [hidx]
      dsimp only
      rw [if_neg hnb, htn]
    rw [he]
    refine ⟨_, recordGet_recordSet_self _ _ _, ?_, ?_, ?_, ?_, ?_⟩
    · simp
    · simp [List.getD_eq_getElem?_getD, List.getElem?_eq_getElem hilt, hieq]
    · rw [List.getD_eq_getElem?_getD,
        List.getElem?_set_self (show j <
          (col.cardIds.set i (col.cardIds.getD j "")).length by
            simpa using hjlt),
        Option.getD_some, List.getD_eq_getElem?_getD,
        List.getElem?_eq_getElem hilt, Option.getD_some, hieq]
    · rw [List.getD_eq_getElem?_getD,
        List.getElem?_set_ne (Ne.symm hij),
        List.getElem?_set_self hilt]
      rfl
    · intro k hki hkj
      rw [List.getD_eq_getElem?_getD,
        List.getElem?_set_ne (Ne.symm hkj),
        List.getElem?_set_ne (Ne.symm hki),
        List.getD_eq_getElem?_getD]

/-- Witness for C9 on the seed board: moving `c1` left in `todo` is a
no-op; moving it right swaps it with `c3`. -/
theorem moveWithinColumn_swap_witness :
    moveWithinColumn "c1" "todo" .left (initialState 0) = initialState 0 ∧
    ∃ col', recordGet (moveWithinColumn "c1" "todo" .right
        (initialState 0)).columns "todo" = some col' ∧
      col'.cardIds.length = (["c1", "c3"] : List String).length ∧
      (["c1", "c3"] : List String).getD 0 "" = "c1" ∧
      col'.cardIds.getD 1 "" = "c1" ∧
      col'.cardIds.getD 0 "" = (["c1", "c3"] : List String).getD 1 "" ∧
      ∀ k, k ≠ 0 → k ≠ 1 →
        col'.cardIds.getD k "" = (["c1", "c3"] : List String).getD k "" :=
  ⟨(moveWithinColumn_swap (initialState 0) "todo" "c1" .left
      { id := "todo", title := "To Do", cardIds := ["c1", "c3"] } 0
      rfl rfl).1 (by decide),
   (moveWithinColumn_swap (initialState 0) "todo" "c1" .right
      { id := "todo", title := "To Do", cardIds := ["c1", "c3"] } 0
      rfl rfl).2 1 (by decide) (by decide)⟩

end MentalLoad
